import Mathlib

/-!
Verification of the Mastermind solver core (src/main.rs) against its
specification.  The Rust code is shallowly embedded: fixed-size arrays
`[u32; FIELDS]` become `List Nat` of the corresponding length, `u32`
arithmetic becomes `Nat` arithmetic (the repo's own test asserts
`NUM_COLORS <= 32`, so the `u32` color bitmasks never overflow and an
exact `Nat` bitmask is faithful; `u32` subtractions are shown never to
underflow before they are relied upon), and the `f64` entropy score is
modelled over `ℝ` (Mathlib's junk values `x / 0 = 0` and `logb 2 0 = 0`
make the modelled terms coincide with the code's `is_finite` guard that
replaces NaN terms by 0).  Iterators become explicit step functions on
their states.
-/

namespace Mastermind

/-- Little-endian base-`K` digits of `n`, `N` digits: the mixed-radix
counting sequence with position 0 fastest-varying.  Used to describe the
order in which `GuessIterator` enumerates sequences. -/
def toDigits : Nat → Nat → Nat → List Nat
  | 0, _, _ => []
  | N + 1, K, n => n % K :: toDigits N K (n / K)

/-- Inverse of `toDigits`: the value of a little-endian digit list. -/
def ofDigits (K : Nat) : List Nat → Nat
  | [] => 0
  | d :: rest => d + K * ofDigits K rest

/-- The color presence bitmask built by `evaluate`'s first loop:
`for color in code.0 { colors |= 1 << color }`. -/
def color_bitmask (code : List Nat) : Nat :=
  code.foldl (fun colors color => colors ||| (1 <<< color)) 0

/-- Loop body of `Guess::is_valid_code`, carrying the accumulated
bitmask: reject as soon as a color repeats. -/
def is_valid_aux : Nat → List Nat → Bool
  | _, [] => true
  | colors, color :: rest =>
    if 0 < colors &&& (1 <<< color) then false
    else is_valid_aux (colors ||| (1 <<< color)) rest

/-- `Guess::is_valid_code`: all symbols pairwise distinct, tested via a
presence bitmask. -/
def is_valid_code (g : List Nat) : Bool := is_valid_aux 0 g

/-- The feedback pair `Evaluation { correct_color, exact }`. -/
structure Evaluation where
  correct_color : Nat
  exact : Nat
deriving DecidableEq

/-- `Evaluation::lut_for_index`: `(i + 2) * (i + 1) / 2`. -/
def lut_for_index (i : Nat) : Nat := (i + 2) * (i + 1) / 2

/-- `max_gauss` / `Evaluation::MAX_GAUSS`: `(i + 2) * (i + 1) / 2`,
the number of feasible feedback pairs for sequence length `i`. -/
def max_gauss (i : Nat) : Nat := (i + 2) * (i + 1) / 2

/-- `Evaluation::to_u32` for sequence length `N`:
`MAX_GAUSS + exact - lut_for_index(FIELDS - correct_color)`. -/
def Evaluation.to_u32 (N : Nat) (e : Evaluation) : Nat :=
  max_gauss N + e.exact - lut_for_index (N - e.correct_color)

/-- Feasibility of a feedback pair for sequence length `N`
(the invariant stated in the spec's data model). -/
def feasible (N : Nat) (e : Evaluation) : Prop :=
  e.exact + e.correct_color ≤ N

instance (N : Nat) (e : Evaluation) : Decidable (feasible N e) := by
  unfold feasible; infer_instance

/-- The `exact_matches` counter of `evaluate`: positions where code and
guess agree. -/
def exact_matches (code guess : List Nat) : Nat :=
  (code.zip guess).countP fun p => p.1 == p.2

/-- The `inexact_matches` counter of `evaluate`: positions whose guess
symbol is present in the code's bitmask. -/
def inexact_matches (code guess : List Nat) : Nat :=
  (code.zip guess).countP fun p => decide (0 < color_bitmask code &&& (1 <<< p.2))

/-- `evaluate(code, guess)`: correct_color is
`inexact_matches - exact_matches`. -/
def evaluate (code guess : List Nat) : Evaluation :=
  { correct_color := inexact_matches code guess - exact_matches code guess
    exact := exact_matches code guess }

/-- State of `GuessIterator`. -/
structure GuessIterator where
  current : List Nat
  exhausted : Bool
deriving DecidableEq

/-- The carry loop of `GuessIterator::next` after `current[0] += 1`:
`for i in 0..FIELDS-1 { if current[i] >= COLORS { current[i] = 0;
current[i+1] += 1 } }`.  The first argument is the (possibly already
incremented) value at the position under scrutiny; the last position is
scanned but never wrapped, exactly as in the source. -/
def carry_digits (K : Nat) : Nat → List Nat → List Nat
  | d, [] => [d]
  | d, e :: rest =>
    if K ≤ d then 0 :: carry_digits K (e + 1) rest
    else d :: carry_digits K e rest

/-- `current[0] += 1` followed by the carry loop. -/
def inc_digits (K : Nat) : List Nat → List Nat
  | [] => []
  | d :: rest => carry_digits K (d + 1) rest

/-- `GuessIterator::next`: return the current sequence, marking the
iterator exhausted when it was the all-`(K-1)` sequence, then advance. -/
def GuessIterator.next (K : Nat) (s : GuessIterator) :
    Option (List Nat) × GuessIterator :=
  if s.exhausted then (none, s)
  else
    (some s.current,
      { current := inc_digits K s.current
        exhausted := s.current.all fun x => x == K - 1 })

/-- `GuessIterator::default()`: all-zero current, not exhausted. -/
def guess_init (N : Nat) : GuessIterator :=
  { current := List.replicate N 0, exhausted := false }

/-- Iterator state after `n` calls to `next`. -/
def guess_state (N K : Nat) : Nat → GuessIterator
  | 0 => guess_init N
  | n + 1 => ((guess_state N K n).next K).2

/-- Result of the `n`-th (0-based) call to `GuessIterator::next`. -/
def runGuess (N K n : Nat) : Option (List Nat) :=
  ((guess_state N K n).next K).1

/-- All sequences yielded by a fresh `GuessIterator` (it yields nothing
after `K ^ N` calls, so collecting the first `K ^ N` results is the full
output). -/
def guess_list (N K : Nat) : List (List Nat) :=
  (List.range (K ^ N)).filterMap (runGuess N K)

/-- The `find` in `CodeIterator::next`: keep stepping the wrapped
`GuessIterator` until it yields a valid code or is exhausted.  The fuel
argument only serves termination; `K ^ N + 1` steps always suffice
because the wrapped iterator is exhausted after at most `K ^ N` yields. -/
def find_valid (K : Nat) : Nat → GuessIterator → Option (List Nat)
  | 0, _ => none
  | fuel + 1, s =>
    match s.next K with
    | (none, _) => none
    | (some g, s') => if is_valid_code g then some g else find_valid K fuel s'

/-- `CodeIterator::next` from state `current`:
`self.current.iter().skip(1).find(|g| g.is_valid_code())` — a fresh
`GuessIterator` at `current`, its first output (which is `current`
itself) discarded by `skip(1)`, scanned for the first valid code. -/
def code_next (N K : Nat) (current : List Nat) : Option (List Nat) :=
  find_valid K (K ^ N + 1)
    ((GuessIterator.next K { current := current, exhausted := false }).2)

/-- `CodeIterator` state after `n` calls, from an arbitrary start state:
on `Some(g)` the state becomes `g`; on `None` the `?` operator leaves
`self.current` unchanged. -/
def code_state_from (N K : Nat) (s0 : List Nat) : Nat → List Nat
  | 0 => s0
  | n + 1 =>
    match code_next N K (code_state_from N K s0 n) with
    | some g => g
    | none => code_state_from N K s0 n

/-- Result of the `n`-th call to `CodeIterator::next` from start `s0`. -/
def runCodeFrom (N K : Nat) (s0 : List Nat) (n : Nat) : Option (List Nat) :=
  code_next N K (code_state_from N K s0 n)

/-- `CodeIterator::default()` state after `n` calls. -/
def code_state (N K : Nat) : Nat → List Nat
  | 0 => List.replicate N 0
  | n + 1 =>
    match code_next N K (code_state N K n) with
    | some g => g
    | none => code_state N K n

/-- Result of the `n`-th (0-based) call to `CodeIterator::next` on a
fresh `CodeIterator::default()`. -/
def runCode (N K n : Nat) : Option (List Nat) :=
  code_next N K (code_state N K n)

/-- All codes yielded by a fresh `CodeIterator` (at most `K ^ N` calls
can yield). -/
def code_list (N K : Nat) : List (List Nat) :=
  (List.range (K ^ N)).filterMap (runCode N K)

/-- The valid codes among `toDigits N K m, toDigits N K (m+1), ...,
toDigits N K (K^N - 1)`, in enumeration order.  `code_suffix N K 1` is
the reference list of everything `CodeIterator` yields (it skips index
0, the all-zero seed). -/
def code_suffix (N K m : Nat) : List (List Nat) :=
  ((List.range' m (K ^ N - m)).map (toDigits N K)).filter is_valid_code

/-- A history entry `Entry { guess, evaluation }`. -/
structure Entry where
  guess : List Nat
  evaluation : Evaluation

/-- `SimpleGuesser::code_is_valid`: the candidate reproduces every
recorded feedback (`evaluate(current_guess, entry.guess) ==
entry.evaluation` for every history entry). -/
def code_is_valid (history : List Entry) (current_guess : List Nat) : Bool :=
  history.all fun entry => decide (evaluate current_guess entry.guess = entry.evaluation)

/-- `SimpleGuesser::generate_valid_codes`: filter the `CodeIterator`
enumeration by consistency with the history. -/
def generate_valid_codes (N K : Nat) (history : List Entry) : List (List Nat) :=
  (code_list N K).filter (code_is_valid history)

/-- The bucket counter: `counts[i]` after the scoring loop, i.e. the
number of consistent codes whose feedback against `guess` encodes to
index `i`. -/
def bucket (N : Nat) (codes : List (List Nat)) (g : List Nat) (i : Nat) : Nat :=
  codes.countP fun code => (evaluate code g).to_u32 N == i

/-- `counts.iter().sum()`: total over the `PARTITIONS = max_gauss N`
buckets. -/
def bucket_sum (N : Nat) (codes : List (List Nat)) (g : List Nat) : Nat :=
  ∑ i ∈ Finset.range (max_gauss N), bucket N codes g i

/-- One term `-x * x.log2()` of the entropy sum for a bucket of size `x`
out of `s`, over `ℝ`.  The code replaces non-finite terms (arising from
`0/0 = NaN` and `-0 * log2 0 = NaN`) by `0`; with Mathlib's conventions
`x / 0 = 0` and `logb 2 0 = 0` those terms are literally `0` here. -/
noncomputable def ent_term (x s : Nat) : ℝ :=
  -((x : ℝ) / (s : ℝ) * Real.logb 2 ((x : ℝ) / (s : ℝ)))

/-- The entropy score (`information`) of a candidate guess. -/
noncomputable def information (N : Nat) (codes : List (List Nat)) (g : List Nat) : ℝ :=
  ∑ i ∈ Finset.range (max_gauss N), ent_term (bucket N codes g i) (bucket_sum N codes g)

/-- The final score of a candidate guess: entropy plus the
`PARTITIONS - 1` bonus when `counts[FIELDS] == 1 && sum == 1`. -/
noncomputable def score (N : Nat) (codes : List (List Nat)) (g : List Nat) : ℝ :=
  information N codes g +
    if bucket N codes g N = 1 ∧ bucket_sum N codes g = 1
    then (max_gauss N : ℝ) - 1 else 0

/-- `max_by` on the score component, keeping the later element on ties,
as rayon's `max_by` does. -/
noncomputable def max_by_score {α : Type} (l : List (α × ℝ)) : Option (α × ℝ) :=
  l.foldl
    (fun acc p =>
      match acc with
      | none => some p
      | some q => if q.2 ≤ p.2 then some p else some q)
    none

/-- `SimpleGuesser::guess` (default feature set: candidate guesses are
all sequences from `GuessIterator`): score every candidate against the
consistent-code set and return the best (`None` would require an empty
candidate list, which cannot happen). -/
noncomputable def SimpleGuesser.guess (N K : Nat) (history : List Entry) :
    Option (List Nat × ℝ) :=
  max_by_score
    ((guess_list N K).map fun g => (g, score N (generate_valid_codes N K history) g))

/-! ## Arithmetic facts about the triangular-number table -/

theorem lut_two_mul (i : Nat) : lut_for_index i * 2 = (i + 2) * (i + 1) := by
  have h : 2 ∣ (i + 2) * (i + 1) := by
    rw [Nat.mul_comm]
    exact (Nat.even_mul_succ_self (i + 1)).two_dvd
  unfold lut_for_index
  exact Nat.div_mul_cancel h

theorem lut_succ (i : Nat) : lut_for_index (i + 1) = lut_for_index i + (i + 2) := by
  have h1 := lut_two_mul i
  have h2 := lut_two_mul (i + 1)
  have h3 : (i + 1 + 2) * (i + 1 + 1) = (i + 2) * (i + 1) + 2 * (i + 2) := by ring
  omega

theorem lut_zero : lut_for_index 0 = 1 := rfl

theorem lut_mono {a b : Nat} (h : a ≤ b) : lut_for_index a ≤ lut_for_index b := by
  induction h with
  | refl => exact le_rfl
  | @step m h ih =>
    have := lut_succ m
    simp only [Nat.succ_eq_add_one] at *
    omega

theorem lut_gap {a b : Nat} (h : a < b) :
    lut_for_index a + b + 1 ≤ lut_for_index b := by
  induction h with
  | refl =>
    have := lut_succ a
    simp only [Nat.succ_eq_add_one] at *
    omega
  | @step m h ih =>
    have := lut_succ m
    simp only [Nat.succ_eq_add_one] at *
    omega

theorem lut_pos (i : Nat) : i + 1 ≤ lut_for_index i := by
  induction i with
  | zero => simp [lut_zero]
  | succ i ih => have := lut_succ i; omega

theorem max_gauss_eq_lut (N : Nat) : max_gauss N = lut_for_index N := rfl

/-! ## The feedback encoding (claims C1, C4, C10) -/

theorem to_u32_lt {N : Nat} {e : Evaluation} (h : feasible N e) :
    e.to_u32 N < max_gauss N := by
  obtain ⟨c, x⟩ := e
  unfold feasible at h
  simp only [Evaluation.to_u32, max_gauss_eq_lut]
  have hm : lut_for_index (N - c) ≤ lut_for_index N := lut_mono (by omega)
  have hp : (N - c) + 1 ≤ lut_for_index (N - c) := lut_pos (N - c)
  simp only at h ⊢
  omega

theorem to_u32_inj {N : Nat} {e1 e2 : Evaluation} (h1 : feasible N e1)
    (h2 : feasible N e2) (h : e1.to_u32 N = e2.to_u32 N) : e1 = e2 := by
  obtain ⟨c1, x1⟩ := e1
  obtain ⟨c2, x2⟩ := e2
  unfold feasible at h1 h2
  simp only [Evaluation.to_u32, max_gauss_eq_lut] at h
  simp only at h1 h2
  have hm1 : lut_for_index (N - c1) ≤ lut_for_index N := lut_mono (by omega)
  have hm2 : lut_for_index (N - c2) ≤ lut_for_index N := lut_mono (by omega)
  have hkey : c1 = c2 ∧ x1 = x2 := by
    rcases Nat.lt_trichotomy (N - c1) (N - c2) with hlt | heq | hgt
    · have := lut_gap hlt
      omega
    · have : lut_for_index (N - c1) = lut_for_index (N - c2) := by rw [heq]
      omega
    · have := lut_gap hgt
      omega
  simp [hkey.1, hkey.2]

theorem to_u32_surj_aux (N : Nat) :
    ∀ c, c ≤ N → ∀ i, i < max_gauss N - lut_for_index (N - c) + (N - c) + 1 →
      ∃ e : Evaluation, feasible N e ∧ e.to_u32 N = i := by
  intro c
  induction c with
  | zero =>
    intro _ i hi
    refine ⟨⟨0, i⟩, ?_, ?_⟩
    · unfold feasible
      simp only [max_gauss_eq_lut, Nat.sub_zero] at hi ⊢
      omega
    · simp only [Evaluation.to_u32, max_gauss_eq_lut, Nat.sub_zero] at hi ⊢
      omega
  | succ c ih =>
    intro hc i hi
    have hm1 : N - (c + 1) + 1 = N - c := by omega
    have hstep : lut_for_index (N - c) =
        lut_for_index (N - (c + 1)) + (N - c + 1) := by
      have h := lut_succ (N - (c + 1))
      rw [hm1] at h
      omega
    have hmono : lut_for_index (N - c) ≤ lut_for_index N := lut_mono (Nat.sub_le N c)
    have hmono1 : lut_for_index (N - (c + 1)) ≤ lut_for_index N :=
      lut_mono (Nat.sub_le N (c + 1))
    rcases Nat.lt_or_ge i (max_gauss N - lut_for_index (N - c) + (N - c) + 1) with hlo | hhi
    · exact ih (by omega) i hlo
    · refine ⟨⟨c + 1, i - (max_gauss N - lut_for_index (N - (c + 1)))⟩, ?_, ?_⟩
      · unfold feasible
        simp only [max_gauss_eq_lut] at hi hhi ⊢
        omega
      · simp only [Evaluation.to_u32, max_gauss_eq_lut] at hi hhi ⊢
        omega

theorem to_u32_surj {N i : Nat} (hi : i < max_gauss N) :
    ∃ e : Evaluation, feasible N e ∧ e.to_u32 N = i := by
  refine to_u32_surj_aux N N le_rfl i ?_
  have h0 : lut_for_index (N - N) = 1 := by rw [Nat.sub_self]; exact lut_zero
  have h1 : 1 ≤ max_gauss N := by
    rw [max_gauss_eq_lut]
    have := lut_pos N
    omega
  rw [h0]
  omega

/-- Claim C1: for fixed sequence length `N`, `Evaluation::to_u32` is a
bijection from the feasible feedback pairs
`{(exact, colorOnly) : exact + colorOnly ≤ N}` onto
`[0, MaxPartitions)` with `MaxPartitions = (N+1)(N+2)/2 = max_gauss N`:
it maps into the range, distinct feasible pairs get distinct indices,
and every index is hit. -/
theorem to_u32_bijective (N : Nat) :
    max_gauss N = (N + 1) * (N + 2) / 2 ∧
    (∀ e : Evaluation, feasible N e → e.to_u32 N < max_gauss N) ∧
    (∀ e1 e2 : Evaluation, feasible N e1 → feasible N e2 →
      e1.to_u32 N = e2.to_u32 N → e1 = e2) ∧
    (∀ i, i < max_gauss N → ∃ e : Evaluation, feasible N e ∧ e.to_u32 N = i) := by
  refine ⟨by unfold max_gauss; rw [Nat.mul_comm], ?_, ?_, ?_⟩
  · exact fun e he => to_u32_lt he
  · exact fun e1 e2 h1 h2 h => to_u32_inj h1 h2 h
  · exact fun i hi => to_u32_surj hi

/-- Witness for C1 at `N = 3`: e.g. index 4 is realized by a feasible
pair, and the encoding of a concrete feasible pair is in range. -/
theorem to_u32_bijective_witness :
    ∃ e : Evaluation, feasible 3 e ∧ e.to_u32 3 = 4 :=
  (to_u32_bijective 3).2.2.2 4 (by decide)

/-! ## The scorer evaluate (claims C2, C9, C10) -/

theorem one_shift (c : Nat) : 1 <<< c = 2 ^ c := by
  rw [Nat.shiftLeft_eq, Nat.one_mul]

theorem testBit_color_aux (l : List Nat) :
    ∀ (acc b : Nat),
      ((l.foldl (fun colors color => colors ||| (1 <<< color)) acc).testBit b = true) ↔
        (acc.testBit b = true ∨ b ∈ l) := by
  induction l with
  | nil => intro acc b; simp
  | cons c t ih =>
    intro acc b
    simp only [List.foldl_cons, List.mem_cons]
    rw [ih, Nat.testBit_or, one_shift, Nat.testBit_two_pow]
    simp only [Bool.or_eq_true, decide_eq_true_eq]
    constructor
    · rintro ((h | h) | h)
      · exact Or.inl h
      · exact Or.inr (Or.inl h.symm)
      · exact Or.inr (Or.inr h)
    · rintro (h | h | h)
      · exact Or.inl (Or.inl h)
      · exact Or.inl (Or.inr h.symm)
      · exact Or.inr h

theorem testBit_color_bitmask (code : List Nat) (b : Nat) :
    ((color_bitmask code).testBit b = true) ↔ b ∈ code := by
  unfold color_bitmask
  rw [testBit_color_aux]
  simp

theorem and_shift_pos (colors b : Nat) :
    0 < colors &&& (1 <<< b) ↔ colors.testBit b = true := by
  rw [one_shift, Nat.and_two_pow]
  cases h : colors.testBit b
  · simp
  · have hp : 0 < 2 ^ b := pow_pos (by norm_num) b
    simp only [Bool.toNat_true, Nat.one_mul]
    simp [hp]

theorem inexact_pred (code : List Nat) (p : Nat × Nat) :
    decide (0 < color_bitmask code &&& (1 <<< p.2)) = decide (p.2 ∈ code) := by
  have h1 := and_shift_pos (color_bitmask code) p.2
  have h2 := testBit_color_bitmask code p.2
  by_cases h : p.2 ∈ code <;> simp_all

theorem inexact_matches_eq (code guess : List Nat) :
    inexact_matches code guess =
      (code.zip guess).countP fun p => decide (p.2 ∈ code) := by
  unfold inexact_matches
  refine List.countP_congr ?_
  intro p _
  rw [inexact_pred]

theorem countP_sub {α : Type} (l : List α) (p q : α → Bool)
    (h : ∀ a ∈ l, p a = true → q a = true) :
    l.countP q - l.countP p = l.countP fun a => !(p a) && q a := by
  induction l with
  | nil => simp
  | cons a t ih =>
    have ht : ∀ x ∈ t, p x = true → q x = true :=
      fun x hx => h x (List.mem_cons_of_mem a hx)
    have hle : t.countP p ≤ t.countP q := List.countP_mono_left ht
    have hih := ih ht
    cases hp : p a with
    | true =>
      have hq := h a (List.mem_cons_self a t) hp
      simp [List.countP_cons, hp, hq]
      omega
    | false =>
      cases hq : q a with
      | true =>
        simp [List.countP_cons, hp, hq]
        omega
      | false =>
        simp [List.countP_cons, hp, hq]
        omega

theorem correct_color_eq (code guess : List Nat) :
    (evaluate code guess).correct_color =
      (code.zip guess).countP fun p => !(p.1 == p.2) && decide (p.2 ∈ code) := by
  show inexact_matches code guess - exact_matches code guess = _
  rw [inexact_matches_eq]
  unfold exact_matches
  refine countP_sub (code.zip guess) _ _ ?_
  rintro ⟨x, y⟩ hmem hxy
  have hx : x ∈ code := (List.of_mem_zip hmem).1
  have heq : x = y := by simpa using hxy
  simp only [decide_eq_true_eq]
  exact heq ▸ hx

theorem exact_le_inexact (code guess : List Nat) :
    exact_matches code guess ≤ inexact_matches code guess := by
  rw [inexact_matches_eq]
  unfold exact_matches
  refine List.countP_mono_left ?_
  rintro ⟨x, y⟩ hmem hxy
  have hx : x ∈ code := (List.of_mem_zip hmem).1
  have heq : x = y := by simpa using hxy
  simp only [decide_eq_true_eq]
  exact heq ▸ hx

theorem exact_add_correct (code guess : List Nat) :
    (evaluate code guess).exact + (evaluate code guess).correct_color =
      inexact_matches code guess := by
  show exact_matches code guess + (inexact_matches code guess - exact_matches code guess) = _
  have := exact_le_inexact code guess
  omega

theorem inexact_le_len {N : Nat} {code guess : List Nat}
    (hc : code.length = N) (hg : guess.length = N) :
    inexact_matches code guess ≤ N := by
  have h : inexact_matches code guess ≤ (code.zip guess).length := by
    unfold inexact_matches
    exact List.countP_le_length _
  rw [List.length_zip, hc, hg, Nat.min_self] at h
  exact h

theorem evaluate_feasible {N : Nat} {code guess : List Nat}
    (hc : code.length = N) (hg : guess.length = N) :
    feasible N (evaluate code guess) := by
  unfold feasible
  have h1 := exact_add_correct code guess
  have h2 := inexact_le_len hc hg
  omega

/-- Claim C2: with equal lengths and a duplicate-free code, `evaluate`
returns `exact` counting the agreeing positions and `correct_color`
counting the positions whose symbol differs from the code there but is
present somewhere in the code (presence, not remaining multiplicity),
and the two concrete instances from the repo's tests hold. -/
theorem evaluate_counts (code guess : List Nat)
    (hlen : code.length = guess.length) (hnd : code.Nodup) :
    (evaluate code guess).exact = (code.zip guess).countP (fun p => p.1 == p.2) ∧
    (evaluate code guess).correct_color =
      (code.zip guess).countP (fun p => !(p.1 == p.2) && decide (p.2 ∈ code)) ∧
    evaluate [1, 2, 3, 4] [1, 3, 3, 5] = ⟨1, 2⟩ ∧
    evaluate [1, 2, 3, 4, 6, 7] [1, 3, 6, 6, 6, 5] = ⟨3, 2⟩ :=
  ⟨rfl, correct_color_eq code guess, by decide, by decide⟩

/-- Witness for C2 on a concrete code/guess pair (the guess repeats a
color present once in the code and is credited at both positions). -/
theorem evaluate_counts_witness :
    (evaluate [0, 1] [1, 1]).correct_color =
      (([0, 1] : List Nat).zip [1, 1]).countP
        (fun p => !(p.1 == p.2) && decide (p.2 ∈ ([0, 1] : List Nat))) :=
  (evaluate_counts [0, 1] [1, 1] rfl (by decide)).2.1

/-- Claim C9: `evaluate` is total for arbitrary same-length inputs, the
code's symbols need not be distinct: `inexact_matches` always dominates
`exact_matches` (so the `u32` subtraction computing `correct_color`
cannot underflow) and the returned feedback satisfies
`exact + colorOnly ≤ N`. -/
theorem evaluate_total (N : Nat) (code guess : List Nat)
    (hc : code.length = N) (hg : guess.length = N) :
    exact_matches code guess ≤ inexact_matches code guess ∧
    (evaluate code guess).exact + (evaluate code guess).correct_color ≤ N := by
  refine ⟨exact_le_inexact code guess, ?_⟩
  have h1 := exact_add_correct code guess
  have h2 := inexact_le_len hc hg
  omega

/-- Witness for C9 on a code with a repeated symbol. -/
theorem evaluate_total_witness :
    exact_matches [1, 1, 2, 3] [1, 1, 1, 1] ≤ inexact_matches [1, 1, 2, 3] [1, 1, 1, 1] ∧
    (evaluate [1, 1, 2, 3] [1, 1, 1, 1]).exact +
      (evaluate [1, 1, 2, 3] [1, 1, 1, 1]).correct_color ≤ 4 :=
  evaluate_total 4 [1, 1, 2, 3] [1, 1, 1, 1] rfl rfl

/-- Claim C10: for feedback produced by `evaluate` on two length-`N`
sequences, `to_u32` computes without `u32` underflow
(`colorOnly ≤ N` and the subtracted table entry never exceeds
`MAX_GAUSS + exact`) and the resulting index is strictly below
`MaxPartitions = max_gauss N`, so `counts[index]` is in bounds. -/
theorem to_u32_in_bounds (N : Nat) (code guess : List Nat)
    (hc : code.length = N) (hg : guess.length = N) :
    (evaluate code guess).correct_color ≤ N ∧
    lut_for_index (N - (evaluate code guess).correct_color) ≤
      max_gauss N + (evaluate code guess).exact ∧
    (evaluate code guess).to_u32 N < max_gauss N := by
  have hf : feasible N (evaluate code guess) := evaluate_feasible hc hg
  have h1 : (evaluate code guess).correct_color ≤ N := by
    unfold feasible at hf; omega
  refine ⟨h1, ?_, to_u32_lt hf⟩
  have h2 := lut_mono (Nat.sub_le N (evaluate code guess).correct_color)
  rw [max_gauss_eq_lut]
  omega

/-- Witness for C10 at a concrete evaluation. -/
theorem to_u32_in_bounds_witness :
    (evaluate [1, 2, 3, 4] [1, 3, 3, 5]).to_u32 4 < max_gauss 4 :=
  (to_u32_in_bounds 4 [1, 2, 3, 4] [1, 3, 3, 5] rfl rfl).2.2

/-! ## Block structure of the encoding (claim C4) -/

/-- Start index of the block of feedbacks with a given `correct_color`
count. -/
def block_base (N c : Nat) : Nat := max_gauss N - lut_for_index (N - c)

/-- Counterexample to claim C4 as stated, at `N = 3`: the feedbacks with
`exact = 0` do not form a contiguous block ordered by `colorOnly`
(`(exact 0, colorOnly 0) ↦ 0` but `(exact 0, colorOnly 1) ↦ 4`), and the
all-exact feedback `(exact 3, colorOnly 0)` maps to the interior index
`3`, not to `0` or `MaxPartitions - 1 = 9`. -/
theorem to_u32_not_grouped_by_exact :
    (Evaluation.mk 0 0).to_u32 3 = 0 ∧
    (Evaluation.mk 1 0).to_u32 3 = 4 ∧
    (Evaluation.mk 1 0).to_u32 3 ≠ (Evaluation.mk 0 0).to_u32 3 + 1 ∧
    max_gauss 3 = 10 ∧
    (Evaluation.mk 0 3).to_u32 3 = 3 ∧
    ¬((Evaluation.mk 0 3).to_u32 3 = 0 ∨
      (Evaluation.mk 0 3).to_u32 3 = max_gauss 3 - 1) := by
  decide

/-- Claim C4 amended: the encoding groups feedbacks by `colorOnly`
count; for each `colorOnly = c` the feasible feedbacks form a contiguous
block of `N - c + 1` consecutive indices ordered by increasing `exact`,
blocks ordered by increasing `colorOnly`.  Feedback `(0, 0)` is at index
`0` and `(exact 0, colorOnly N)` at index `MaxPartitions - 1`; the
all-exact feedback sits at the interior index `N`. -/
theorem to_u32_grouped_by_color (N : Nat) :
    (∀ e : Evaluation, feasible N e →
      e.to_u32 N = block_base N e.correct_color + e.exact) ∧
    (∀ c, c < N → block_base N (c + 1) = block_base N c + (N - c + 1)) ∧
    block_base N 0 = 0 ∧
    (Evaluation.mk 0 0).to_u32 N = 0 ∧
    (Evaluation.mk N 0).to_u32 N = max_gauss N - 1 ∧
    (Evaluation.mk 0 N).to_u32 N = N := by
  have hbase0 : block_base N 0 = 0 := by
    unfold block_base
    rw [Nat.sub_zero, max_gauss_eq_lut]
    omega
  refine ⟨?_, ?_, hbase0, ?_, ?_, ?_⟩
  · rintro ⟨c, x⟩ hf
    unfold feasible at hf
    simp only at hf
    simp only [Evaluation.to_u32, block_base, max_gauss_eq_lut]
    have h2 := lut_mono (Nat.sub_le N c)
    have h3 := lut_pos (N - c)
    omega
  · intro c hc
    unfold block_base
    have hm1 : N - (c + 1) + 1 = N - c := by omega
    have hstep : lut_for_index (N - c) =
        lut_for_index (N - (c + 1)) + (N - c + 1) := by
      have h := lut_succ (N - (c + 1))
      rw [hm1] at h
      omega
    have h2 := lut_mono (Nat.sub_le N c)
    have h3 := lut_mono (Nat.sub_le N (c + 1))
    rw [max_gauss_eq_lut]
    omega
  · simp only [Evaluation.to_u32, Nat.sub_zero, max_gauss_eq_lut]
    omega
  · simp only [Evaluation.to_u32, Nat.sub_self, lut_zero, max_gauss_eq_lut]
    have := lut_pos N
    omega
  · simp only [Evaluation.to_u32, Nat.sub_zero, max_gauss_eq_lut]
    omega

/-- Witness for the amended C4 at a concrete feasible feedback. -/
theorem to_u32_grouped_by_color_witness :
    (Evaluation.mk 1 2).to_u32 3 = block_base 3 1 + 2 :=
  (to_u32_grouped_by_color 3).1 ⟨1, 2⟩ (by decide)

/-! ## Mixed-radix digit arithmetic (towards claims C6, C7) -/

theorem toDigits_length (N K : Nat) : ∀ n, (toDigits N K n).length = N := by
  induction N with
  | zero => intro n; rfl
  | succ N ih => intro n; simp [toDigits, ih]

theorem toDigits_zero (N K : Nat) : toDigits N K 0 = List.replicate N 0 := by
  induction N with
  | zero => rfl
  | succ N ih => simp [toDigits, Nat.zero_mod, Nat.zero_div, ih, List.replicate_succ]

theorem toDigits_lt {K : Nat} (hK : 0 < K) (N : Nat) :
    ∀ n, ∀ d ∈ toDigits N K n, d < K := by
  induction N with
  | zero => intro n d hd; simp [toDigits] at hd
  | succ N ih =>
    intro n d hd
    simp only [toDigits, List.mem_cons] at hd
    rcases hd with h | h
    · subst h; exact Nat.mod_lt n hK
    · exact ih (n / K) d h

theorem toDigits_formula (K N : Nat) :
    ∀ n, toDigits N K n = (List.range N).map fun i => n / K ^ i % K := by
  induction N with
  | zero => intro n; rfl
  | succ N ih =>
    intro n
    rw [List.range_succ_eq_map]
    simp only [toDigits, List.map_cons, List.map_map]
    rw [ih (n / K)]
    congr 1
    · rw [pow_zero, Nat.div_one]
    · refine List.map_congr_left ?_
      intro i _
      simp only [Function.comp_apply]
      rw [Nat.div_div_eq_div_mul, ← pow_succ']

theorem succ_div_mod_lt {K n : Nat} (hK : 0 < K) (h : n % K + 1 < K) :
    (n + 1) % K = n % K + 1 ∧ (n + 1) / K = n / K := by
  have hdm := Nat.div_add_mod n K
  have heq : n + 1 = (n % K + 1) + K * (n / K) := by omega
  constructor
  · rw [heq, Nat.add_mul_mod_self_left, Nat.mod_eq_of_lt h]
  · rw [heq, Nat.add_mul_div_left _ _ hK, Nat.div_eq_of_lt h, Nat.zero_add]

theorem succ_div_mod_carry {K n : Nat} (hK : 0 < K) (h : n % K = K - 1) :
    (n + 1) % K = 0 ∧ (n + 1) / K = n / K + 1 := by
  have hdm := Nat.div_add_mod n K
  have heq : n + 1 = K * (n / K) + K := by omega
  have heq2 : n + 1 = K * (n / K + 1) := by rw [Nat.mul_succ]; exact heq
  constructor
  · rw [heq2]; exact Nat.mul_mod_right K _
  · rw [heq2]; exact Nat.mul_div_cancel_left _ hK

theorem carry_id {K : Nat} :
    ∀ (l : List Nat) (d : Nat), d < K → (∀ x ∈ l, x < K) →
      carry_digits K d l = d :: l := by
  intro l
  induction l with
  | nil => intro d _ _; rfl
  | cons e t ih =>
    intro d hd hl
    simp only [carry_digits]
    rw [if_neg (by omega), ih e (hl e (by simp)) fun x hx => hl x (List.mem_cons_of_mem _ hx)]

theorem inc_toDigits {K : Nat} (hK : 0 < K) :
    ∀ N n, n + 1 < K ^ N → inc_digits K (toDigits N K n) = toDigits N K (n + 1) := by
  intro N
  induction N with
  | zero => intro n h; rw [pow_zero] at h; omega
  | succ N ih =>
    intro n h
    have hmod : n % K < K := Nat.mod_lt n hK
    simp only [toDigits, inc_digits]
    rcases Nat.lt_or_ge (n % K + 1) K with hlt | hge
    · obtain ⟨hm, hd⟩ := succ_div_mod_lt hK hlt
      rw [carry_id _ _ hlt (toDigits_lt hK N (n / K)), hm, hd]
    · have hcar : n % K = K - 1 := by omega
      obtain ⟨hm, hd⟩ := succ_div_mod_carry hK hcar
      cases N with
      | zero =>
        exfalso
        rw [pow_one] at h
        have h2 : n % K = n := Nat.mod_eq_of_lt (by omega)
        omega
      | succ M =>
        have harg : n / K + 1 < K ^ (M + 1) := by
          have h2 : (n + 1) / K < K ^ (M + 1) := by
            rw [Nat.div_lt_iff_lt_mul hK, ← pow_succ]
            exact h
          rw [hd] at h2
          exact h2
        have hstep : carry_digits K (n % K + 1) (toDigits (M + 1) K (n / K)) =
            0 :: inc_digits K (toDigits (M + 1) K (n / K)) := by
          simp only [toDigits, inc_digits, carry_digits]
          rw [if_pos hge]
        rw [hstep, ih (n / K) harg, hm, hd]

theorem ofDigits_toDigits {K : Nat} (hK : 0 < K) :
    ∀ {N n : Nat}, n < K ^ N → ofDigits K (toDigits N K n) = n := by
  intro N
  induction N with
  | zero =>
    intro n h
    rw [pow_zero] at h
    simp only [toDigits, ofDigits]
    omega
  | succ N ih =>
    intro n h
    have hdiv : n / K < K ^ N := by
      rw [Nat.div_lt_iff_lt_mul hK, ← pow_succ]
      exact h
    simp only [toDigits, ofDigits]
    rw [ih hdiv]
    exact Nat.mod_add_div n K

theorem ofDigits_lt {K : Nat} :
    ∀ l : List Nat, (∀ d ∈ l, d < K) → ofDigits K l < K ^ l.length := by
  intro l
  induction l with
  | nil => intro _; simp [ofDigits]
  | cons d t ih =>
    intro h
    have hd : d < K := h d (by simp)
    have ht := ih fun x hx => h x (List.mem_cons_of_mem _ hx)
    simp only [ofDigits, List.length_cons]
    have h2 : K * (ofDigits K t + 1) ≤ K * K ^ t.length :=
      Nat.mul_le_mul_left K ht
    rw [Nat.mul_succ] at h2
    rw [pow_succ, Nat.mul_comm (K ^ t.length) K]
    omega

theorem toDigits_ofDigits {K : Nat} :
    ∀ l : List Nat, (∀ d ∈ l, d < K) → toDigits l.length K (ofDigits K l) = l := by
  intro l
  induction l with
  | nil => intro _; rfl
  | cons d t ih =>
    intro h
    have hd : d < K := h d (by simp)
    have hK : 0 < K := by omega
    simp only [ofDigits, List.length_cons, toDigits]
    rw [Nat.add_mul_mod_self_left, Nat.mod_eq_of_lt hd,
      Nat.add_mul_div_left _ _ hK, Nat.div_eq_of_lt hd, Nat.zero_add,
      ih fun x hx => h x (List.mem_cons_of_mem _ hx)]

theorem toDigits_max {K : Nat} (hK : 0 < K) :
    ∀ N, toDigits N K (K ^ N - 1) = List.replicate N (K - 1) := by
  intro N
  induction N with
  | zero => rfl
  | succ N ih =>
    have hp : 0 < K ^ N := pow_pos hK N
    have ht : K ^ N = (K ^ N - 1) + 1 := by omega
    have h3 : K * ((K ^ N - 1) + 1) = K * (K ^ N - 1) + K := Nat.mul_succ K _
    have h4 : K ^ (N + 1) = K ^ N * K := pow_succ K N
    have h5 : K ^ N * K = K * K ^ N := Nat.mul_comm _ _
    have h6 : K * K ^ N = K * ((K ^ N - 1) + 1) := congrArg (fun t => K * t) ht
    have h1 : K ^ (N + 1) - 1 = (K - 1) + K * (K ^ N - 1) := by omega
    rw [h1]
    simp only [toDigits]
    rw [Nat.add_mul_mod_self_left, Nat.mod_eq_of_lt (by omega),
      Nat.add_mul_div_left _ _ hK, Nat.div_eq_of_lt (by omega), Nat.zero_add,
      ih, List.replicate_succ]

theorem all_max_iff {K : Nat} (hK : 0 < K) {N n : Nat} (hn : n < K ^ N) :
    (((toDigits N K n).all fun x => x == K - 1) = true) ↔ n = K ^ N - 1 := by
  constructor
  · intro h
    have hrep : toDigits N K n = List.replicate N (K - 1) := by
      rw [List.eq_replicate_iff]
      refine ⟨toDigits_length N K n, ?_⟩
      intro b hb
      have := List.all_eq_true.mp h b hb
      simpa using this
    have hmax : n < K ^ N → ofDigits K (toDigits N K n) = n := fun h => ofDigits_toDigits hK h
    have h1 : ofDigits K (toDigits N K n) = ofDigits K (toDigits N K (K ^ N - 1)) := by
      rw [hrep, toDigits_max hK]
    have hp : 0 < K ^ N := pow_pos hK N
    rw [ofDigits_toDigits hK hn, ofDigits_toDigits hK (by omega)] at h1
    exact h1
  · intro h
    subst h
    rw [toDigits_max hK]
    simp [List.all_eq_true]

/-! ## The sequence iterator (claim C6) -/

theorem guess_state_lt {N K : Nat} (hK : 0 < K) :
    ∀ n, n < K ^ N → guess_state N K n = ⟨toDigits N K n, false⟩ := by
  intro n
  induction n with
  | zero =>
    intro _
    simp [guess_state, guess_init, toDigits_zero]
  | succ n ih =>
    intro h
    have hn : n < K ^ N := by omega
    have hprev := ih hn
    have hall : ((toDigits N K n).all fun x => x == K - 1) = false := by
      rcases Bool.eq_false_or_eq_true ((toDigits N K n).all fun x => x == K - 1)
        with hf | htr
      · exfalso
        have := (all_max_iff hK hn).mp hf
        have hp : 0 < K ^ N := pow_pos hK N
        omega
      · exact htr
    simp only [guess_state, hprev, GuessIterator.next]
    rw [if_neg (by simp)]
    simp only
    rw [hall, inc_toDigits hK N n h]

theorem guess_state_ge {N K : Nat} (hK : 0 < K) :
    ∀ n, K ^ N ≤ n → (guess_state N K n).exhausted = true := by
  intro n
  induction n with
  | zero =>
    intro h
    have := pow_pos hK N
    omega
  | succ n ih =>
    intro h
    rcases Nat.lt_or_ge n (K ^ N) with hlt | hge
    · have hn : n = K ^ N - 1 := by omega
      have hprev := guess_state_lt hK n hlt
      simp only [guess_state, hprev, GuessIterator.next]
      rw [if_neg (by simp)]
      simp only
      exact (all_max_iff hK hlt).mpr hn
    · have hex := ih hge
      simp only [guess_state, GuessIterator.next]
      rw [if_pos hex]
      exact hex

theorem runGuess_eq {N K : Nat} (hK : 0 < K) (n : Nat) :
    runGuess N K n = if n < K ^ N then some (toDigits N K n) else none := by
  unfold runGuess
  rcases Nat.lt_or_ge n (K ^ N) with h | h
  · rw [guess_state_lt hK n h, if_pos h]
    simp [GuessIterator.next]
  · have hex := guess_state_ge hK n h
    rw [if_neg (by omega)]
    simp [GuessIterator.next, hex]

/-- Claim C6: for `N, K ≥ 1` the sequence enumerator yields, on its
`n`-th call, exactly the base-`K` digit expansion of `n` (position 0
fastest-varying) while `n < K ^ N`, and `none` on every later call;
the digit expansions are pairwise distinct over `[0, K ^ N)` and cover
every length-`N` sequence over `[0, K)`, so exactly `K ^ N` distinct
sequences are produced; the first four outputs for `N = 3, K = 4` are
as the spec's scenario states. -/
theorem guess_iterator_spec (N K : Nat) (hN : 0 < N) (hK : 0 < K) :
    (∀ n, toDigits N K n = (List.range N).map fun i => n / K ^ i % K) ∧
    (∀ n, n < K ^ N → runGuess N K n = some (toDigits N K n)) ∧
    (∀ n, K ^ N ≤ n → runGuess N K n = none) ∧
    (∀ m n, m < K ^ N → n < K ^ N → toDigits N K m = toDigits N K n → m = n) ∧
    (∀ l : List Nat, l.length = N → (∀ d ∈ l, d < K) →
      ∃ n, n < K ^ N ∧ toDigits N K n = l) ∧
    (runGuess 3 4 0 = some [0, 0, 0] ∧ runGuess 3 4 1 = some [1, 0, 0] ∧
      runGuess 3 4 2 = some [2, 0, 0] ∧ runGuess 3 4 3 = some [3, 0, 0]) := by
  refine ⟨toDigits_formula K N, ?_, ?_, ?_, ?_, by decide⟩
  · intro n h
    rw [runGuess_eq hK, if_pos h]
  · intro n h
    rw [runGuess_eq hK, if_neg (by omega)]
  · intro m n hm hn he
    have h1 := ofDigits_toDigits hK hm
    have h2 := ofDigits_toDigits hK hn
    rw [← h1, ← h2, he]
  · intro l hl hd
    refine ⟨ofDigits K l, ?_, ?_⟩
    · have := ofDigits_lt l hd
      rw [hl] at this
      exact this
    · have := toDigits_ofDigits l hd
      rw [hl] at this
      exact this

/-- Witness for C6: the sixth output at `N = 3, K = 4`. -/
theorem guess_iterator_spec_witness :
    runGuess 3 4 5 = some (toDigits 3 4 5) :=
  (guess_iterator_spec 3 4 (by decide) (by decide)).2.1 5 (by decide)

/-! ## The code iterator (claim C7) -/

theorem find_valid_exhausted (K : Nat) :
    ∀ (fuel : Nat) (s : GuessIterator), s.exhausted = true →
      find_valid K fuel s = none := by
  intro fuel s h
  cases fuel with
  | zero => rfl
  | succ f =>
    have hn : s.next K = (none, s) := by
      simp [GuessIterator.next, h]
    simp only [find_valid, hn]

theorem all_max_false {N K : Nat} (hK : 0 < K) {m : Nat} (hm : m < K ^ N)
    (hm1 : m + 1 < K ^ N) :
    ((toDigits N K m).all fun x => x == K - 1) = false := by
  rcases Bool.eq_false_or_eq_true ((toDigits N K m).all fun x => x == K - 1)
    with ht | hf
  · exfalso
    have := (all_max_iff hK hm).mp ht
    have := pow_pos hK N
    omega
  · exact hf

theorem find_valid_scan {N K : Nat} (hK : 0 < K) :
    ∀ (fuel j : Nat), j < K ^ N → K ^ N - j ≤ fuel →
      find_valid K fuel ⟨toDigits N K j, false⟩ =
        ((List.range' j (K ^ N - j)).map (toDigits N K)).find? is_valid_code := by
  intro fuel
  induction fuel with
  | zero => intro j hj hf; omega
  | succ f ih =>
    intro j hj hf
    have hnext : GuessIterator.next K ⟨toDigits N K j, false⟩ =
        (some (toDigits N K j),
          ⟨inc_digits K (toDigits N K j), (toDigits N K j).all fun x => x == K - 1⟩) := by
      simp [GuessIterator.next]
    have hc : K ^ N - j = (K ^ N - j - 1) + 1 := by omega
    rw [hc, List.range'_succ, List.map_cons]
    simp only [find_valid, hnext]
    rcases Bool.eq_false_or_eq_true (is_valid_code (toDigits N K j)) with hval | hval
    · rw [if_pos hval, List.find?_cons_of_pos _ hval]
    · rw [if_neg (by simp [hval]), List.find?_cons_of_neg _ (by simp [hval])]
      rcases Nat.lt_or_ge (j + 1) (K ^ N) with hj1 | hj1
      · rw [all_max_false hK hj hj1, inc_toDigits hK N j hj1, ih (j + 1) hj1 (by omega)]
        have he : K ^ N - j - 1 = K ^ N - (j + 1) := by omega
        rw [he]
      · have hj2 : j = K ^ N - 1 := by
          have := pow_pos hK N
          omega
        rw [(all_max_iff hK hj).mpr hj2, find_valid_exhausted K f _ rfl]
        have h0 : K ^ N - j - 1 = 0 := by omega
        rw [h0]
        rfl

theorem code_next_eq {N K : Nat} (hK : 0 < K) :
    ∀ m, m < K ^ N →
      code_next N K (toDigits N K m) =
        ((List.range' (m + 1) (K ^ N - (m + 1))).map (toDigits N K)).find?
          is_valid_code := by
  intro m hm
  unfold code_next
  have hnext : (GuessIterator.next K ⟨toDigits N K m, false⟩).2 =
      ⟨inc_digits K (toDigits N K m), (toDigits N K m).all fun x => x == K - 1⟩ := by
    simp [GuessIterator.next]
  rw [hnext]
  rcases Nat.lt_or_ge (m + 1) (K ^ N) with hm1 | hm1
  · rw [all_max_false hK hm hm1, inc_toDigits hK N m hm1]
    exact find_valid_scan hK (K ^ N + 1) (m + 1) hm1 (by omega)
  · have hm2 : m = K ^ N - 1 := by
      have := pow_pos hK N
      omega
    rw [(all_max_iff hK hm).mpr hm2, find_valid_exhausted K _ _ rfl]
    have h0 : K ^ N - (m + 1) = 0 := by omega
    rw [h0]
    rfl

theorem code_state_from_none {N K : Nat} {s0 : List Nat}
    (h : code_next N K s0 = none) : ∀ n, code_state_from N K s0 n = s0 := by
  intro n
  induction n with
  | zero => rfl
  | succ n ih => simp only [code_state_from, ih, h]

theorem code_state_from_shift (N K : Nat) (s0 : List Nat) :
    ∀ n, code_state_from N K s0 (n + 1) =
      code_state_from N K
        (match code_next N K s0 with | some g => g | none => s0) n := by
  intro n
  induction n with
  | zero => simp only [code_state_from]
  | succ n ih =>
    have h2 : code_state_from N K s0 (n + 1 + 1) =
        match code_next N K (code_state_from N K s0 (n + 1)) with
        | some g => g
        | none => code_state_from N K s0 (n + 1) := rfl
    rw [h2, ih]
    rfl

theorem runCodeFrom_congr {N K : Nat} :
    ∀ (n : Nat) (s0 s1 : List Nat), code_next N K s0 = code_next N K s1 →
      runCodeFrom N K s0 n = runCodeFrom N K s1 n := by
  intro n
  induction n with
  | zero =>
    intro s0 s1 h
    simpa [runCodeFrom, code_state_from] using h
  | succ n ih =>
    intro s0 s1 h
    show code_next N K (code_state_from N K s0 (n + 1)) =
      code_next N K (code_state_from N K s1 (n + 1))
    rw [code_state_from_shift, code_state_from_shift]
    have h1 : code_next N K s1 = code_next N K s0 := h.symm
    cases hcn : code_next N K s0 with
    | none =>
      rw [hcn] at h1
      simp only [hcn, h1]
      exact ih s0 s1 h
    | some g =>
      rw [hcn] at h1
      simp only [hcn, h1]

theorem runCodeFrom_spec {N K : Nat} (hK : 0 < K) :
    ∀ c m, K ^ N - m = c → m < K ^ N →
      ∀ n, runCodeFrom N K (toDigits N K m) n = (code_suffix N K (m + 1))[n]? := by
  intro c
  induction c with
  | zero => intro m hc hm; omega
  | succ c ih =>
    intro m hc hm n
    have hcn := code_next_eq hK m hm
    rcases Nat.lt_or_ge (m + 1) (K ^ N) with hm1 | hm1
    · have hsplit : K ^ N - (m + 1) = (K ^ N - (m + 2)) + 1 := by omega
      cases hval : is_valid_code (toDigits N K (m + 1)) with
      | true =>
        have hnext : code_next N K (toDigits N K m) = some (toDigits N K (m + 1)) := by
          rw [hcn, hsplit, List.range'_succ, List.map_cons,
            List.find?_cons_of_pos _ hval]
        have hcons : code_suffix N K (m + 1) =
            toDigits N K (m + 1) :: code_suffix N K (m + 2) := by
          unfold code_suffix
          rw [hsplit, List.range'_succ, List.map_cons, List.filter_cons_of_pos hval]
        cases n with
        | zero =>
          show code_next N K (code_state_from N K (toDigits N K m) 0) = _
          rw [show code_state_from N K (toDigits N K m) 0 = toDigits N K m from rfl,
            hnext, hcons]
          simp
        | succ n =>
          show code_next N K (code_state_from N K (toDigits N K m) (n + 1)) = _
          rw [code_state_from_shift]
          simp only [hnext]
          have hrec := ih (m + 1) (by omega) hm1 n
          rw [hcons]
          simpa [runCodeFrom] using hrec
      | false =>
        have hnext2 : code_next N K (toDigits N K m) =
            code_next N K (toDigits N K (m + 1)) := by
          rw [hcn, code_next_eq hK (m + 1) hm1, hsplit, List.range'_succ,
            List.map_cons, List.find?_cons_of_neg _ (by simp [hval])]
        have hsuffix : code_suffix N K (m + 1) = code_suffix N K (m + 2) := by
          unfold code_suffix
          rw [hsplit, List.range'_succ, List.map_cons,
            List.filter_cons_of_neg (by simp [hval])]
        rw [runCodeFrom_congr n _ _ hnext2, ih (m + 1) (by omega) hm1 n, hsuffix]
    · have h0 : K ^ N - (m + 1) = 0 := by omega
      have hnone : code_next N K (toDigits N K m) = none := by
        rw [hcn, h0]
        rfl
      have hempty : code_suffix N K (m + 1) = [] := by
        unfold code_suffix
        rw [h0]
        rfl
      rw [hempty]
      show code_next N K (code_state_from N K (toDigits N K m) n) = _
      rw [code_state_from_none hnone n, hnone]
      simp

theorem code_state_eq (N K : Nat) :
    ∀ n, code_state N K n = code_state_from N K (List.replicate N 0) n := by
  intro n
  induction n with
  | zero => rfl
  | succ n ih => simp only [code_state, code_state_from, ih]

theorem runCode_eq_suffix {N K : Nat} (hK : 0 < K) (n : Nat) :
    runCode N K n = (code_suffix N K 1)[n]? := by
  have h0 : 0 < K ^ N := pow_pos hK N
  have h1 : runCode N K n = runCodeFrom N K (toDigits N K 0) n := by
    unfold runCode runCodeFrom
    rw [code_state_eq, toDigits_zero]
  rw [h1]
  exact runCodeFrom_spec hK (K ^ N) 0 (by omega) h0 n

theorem is_valid_aux_iff :
    ∀ (l : List Nat) (colors : Nat),
      (is_valid_aux colors l = true) ↔
        ((∀ c ∈ l, colors.testBit c = false) ∧ l.Nodup) := by
  intro l
  induction l with
  | nil => intro colors; simp [is_valid_aux]
  | cons c t ih =>
    intro colors
    simp only [is_valid_aux]
    rcases Bool.eq_false_or_eq_true (colors.testBit c) with hb | hb
    · have hpos : 0 < colors &&& (1 <<< c) := (and_shift_pos colors c).mpr hb
      rw [if_pos hpos]
      constructor
      · intro h; simp at h
      · rintro ⟨h1, _⟩
        have h2 := h1 c (List.mem_cons_self c t)
        rw [hb] at h2
        simp at h2
    · have hnpos : ¬ 0 < colors &&& (1 <<< c) := by
        rw [and_shift_pos]
        simp [hb]
      rw [if_neg hnpos, ih (colors ||| (1 <<< c)), List.nodup_cons]
      constructor
      · rintro ⟨h1, h2⟩
        have hct : c ∉ t := by
          intro hc
          have h3 := h1 c hc
          rw [one_shift, Nat.testBit_or] at h3
          simp [Nat.testBit_two_pow] at h3
        refine ⟨?_, hct, h2⟩
        intro x hx
        rcases List.mem_cons.mp hx with rfl | hx'
        · exact hb
        · have h3 := h1 x hx'
          rw [one_shift, Nat.testBit_or] at h3
          exact (Bool.or_eq_false_iff.mp h3).1
      · rintro ⟨h1, hct, h2⟩
        refine ⟨?_, h2⟩
        intro x hx
        rw [one_shift, Nat.testBit_or]
        have ha : colors.testBit x = false := h1 x (List.mem_cons_of_mem _ hx)
        have hbx : (2 ^ c).testBit x = false := by
          rw [Nat.testBit_two_pow]
          simp only [decide_eq_false_iff_not]
          rintro rfl
          exact hct hx
        rw [ha, hbx]
        rfl

theorem is_valid_iff_nodup (l : List Nat) : (is_valid_code l = true) ↔ l.Nodup := by
  unfold is_valid_code
  rw [is_valid_aux_iff]
  simp

/-! ## Counting the valid codes (claim C7) -/

theorem countP_range_card (p : Nat → Bool) :
    ∀ n, (List.range n).countP p =
      ((Finset.range n).filter fun a => p a = true).card := by
  intro n
  induction n with
  | zero => simp
  | succ n ih =>
    rw [List.range_succ, List.countP_append, Finset.range_succ, Finset.filter_insert]
    have hsingle : List.countP p [n] = if p n = true then 1 else 0 := by
      simp [List.countP_cons]
    rcases Bool.eq_false_or_eq_true (p n) with hp | hp
    · rw [hsingle, if_pos hp, if_pos hp,
        Finset.card_insert_of_not_mem (by simp), ih]
    · rw [hsingle, if_neg (by simp [hp]), if_neg (by simp [hp]), ih, Nat.add_zero]

theorem ofFn_emb_bound {N K : Nat} (e : Fin N ↪ Fin K) :
    ∀ d ∈ List.ofFn fun idx => (e idx).val, d < K := by
  intro d hd
  rw [List.mem_ofFn] at hd
  obtain ⟨i, hi⟩ := hd
  rw [← hi]
  exact (e i).isLt

theorem toDigits_ofFn_emb {N K : Nat} (e : Fin N ↪ Fin K) :
    toDigits N K (ofDigits K (List.ofFn fun idx => (e idx).val)) =
      List.ofFn fun idx => (e idx).val := by
  have h := toDigits_ofDigits (List.ofFn fun idx => (e idx).val) (ofFn_emb_bound e)
  rwa [List.length_ofFn] at h

theorem ofDigits_ofFn_emb_lt {N K : Nat} (e : Fin N ↪ Fin K) :
    ofDigits K (List.ofFn fun idx => (e idx).val) < K ^ N := by
  have h := ofDigits_lt (List.ofFn fun idx => (e idx).val) (ofFn_emb_bound e)
  rwa [List.length_ofFn] at h

theorem card_valid_digits {N K : Nat} (hK : 0 < K) :
    ((Finset.range (K ^ N)).filter fun a => is_valid_code (toDigits N K a) = true).card =
      Fintype.card (Fin N ↪ Fin K) := by
  rw [← Finset.card_univ]
  refine Finset.card_bij'
    (fun a ha =>
      ⟨fun idx => ⟨(toDigits N K a).get (Fin.cast (toDigits_length N K a).symm idx),
        toDigits_lt hK N a _ (List.get_mem _ _ _)⟩, ?_⟩)
    (fun e he => ofDigits K (List.ofFn fun idx => (e idx).val)) ?_ ?_ ?_ ?_
  · intro i1 i2 hEq
    have hnd : (toDigits N K a).Nodup :=
      (is_valid_iff_nodup _).mp (Finset.mem_filter.mp ha).2
    have hget := List.nodup_iff_injective_get.mp hnd
    have h2 : (toDigits N K a).get (Fin.cast (toDigits_length N K a).symm i1) =
        (toDigits N K a).get (Fin.cast (toDigits_length N K a).symm i2) :=
      congrArg Fin.val hEq
    have h3 := hget h2
    have h4 := congrArg Fin.val h3
    simp only [Fin.coe_cast] at h4
    exact Fin.ext h4
  · intro a ha
    exact Finset.mem_univ _
  · intro e he
    rw [Finset.mem_filter]
    constructor
    · rw [Finset.mem_range]
      exact ofDigits_ofFn_emb_lt e
    · rw [is_valid_iff_nodup, toDigits_ofFn_emb, List.nodup_ofFn]
      intro i1 i2 h12
      exact e.injective (Fin.val_injective h12)
  · intro a ha
    have hofn : (List.ofFn fun idx : Fin N =>
        (toDigits N K a).get (Fin.cast (toDigits_length N K a).symm idx)) =
        toDigits N K a := by
      refine List.ext_get (by simp [toDigits_length]) ?_
      intro i h1 h2
      rw [List.get_ofFn]
      rfl
    have hlt : a < K ^ N := Finset.mem_range.mp (Finset.mem_filter.mp ha).1
    show ofDigits K (List.ofFn fun idx : Fin N =>
        (toDigits N K a).get (Fin.cast (toDigits_length N K a).symm idx)) = a
    rw [hofn]
    exact ofDigits_toDigits hK hlt
  · intro e he
    refine DFunLike.ext _ _ fun idx => Fin.ext ?_
    show (toDigits N K (ofDigits K (List.ofFn fun k => (e k).val))).get
        (Fin.cast (toDigits_length N K _).symm idx) = (e idx).val
    rw [List.get_of_eq (toDigits_ofFn_emb e), List.get_ofFn]
    rfl

theorem code_suffix_length {N K : Nat} (hN : 2 ≤ N) (hK : 0 < K) :
    (code_suffix N K 1).length = K.descFactorial N := by
  unfold code_suffix
  rw [← List.countP_eq_length_filter, List.countP_map]
  have hKN : 0 < K ^ N := pow_pos hK N
  have h1 : K ^ N = (K ^ N - 1) + 1 := by omega
  have hrange : List.range (K ^ N) = 0 :: List.range' 1 (K ^ N - 1) := by
    have h2 : List.range ((K ^ N - 1) + 1) = 0 :: List.range' 1 (K ^ N - 1) := by
      rw [List.range_eq_range', List.range'_succ]
    rw [← h1] at h2
    exact h2
  have hzero : is_valid_code (toDigits N K 0) = false := by
    rcases Bool.eq_false_or_eq_true (is_valid_code (toDigits N K 0)) with ht | hf
    · exfalso
      have hnd := (is_valid_iff_nodup _).mp ht
      rw [toDigits_zero, List.nodup_replicate] at hnd
      omega
    · exact hf
  have hsplit : (List.range (K ^ N)).countP (is_valid_code ∘ toDigits N K) =
      (List.range' 1 (K ^ N - 1)).countP (is_valid_code ∘ toDigits N K) := by
    rw [hrange, List.countP_cons]
    simp [hzero]
  rw [← hsplit, countP_range_card]
  simp only [Function.comp_apply]
  rw [card_valid_digits hK, Fintype.card_embedding_eq, Fintype.card_fin,
    Fintype.card_fin]

/-- Counterexample to claim C7 as stated: at `N = 1, K = 2` the code
enumerator skips the seed `[0]`, which is itself a valid code, so only
one sequence is yielded although `K!/(K-N)! = 2`. -/
theorem code_iterator_skips_seed :
    runCode 1 2 0 = some [1] ∧ runCode 1 2 1 = none ∧
    Nat.factorial 2 / Nat.factorial (2 - 1) = 2 := by
  decide

/-- Claim C7 amended: for `2 ≤ N ≤ K` (so that the skipped all-zero seed
is itself invalid), `CodeIterator` yields, call by call, exactly the
pairwise-distinct sequences in the order induced by the underlying
mixed-radix enumeration, `K!/(K-N)!` of them in total, then `none`
forever; and for `N = 3, K = 4` the first output is `[2,1,0]`.  (As
stated the claim fails for `N = 1`: the enumerator unconditionally skips
the seed `[0]`, a valid code, and yields only `K - 1` sequences.) -/
theorem code_iterator_spec (N K : Nat) (hN : 2 ≤ N) (hK : 0 < K) (hNK : N ≤ K) :
    (∀ n, runCode N K n = (code_suffix N K 1)[n]?) ∧
    (code_suffix N K 1).length = K.factorial / (K - N).factorial ∧
    (∀ g ∈ code_suffix N K 1, g.Nodup) ∧
    runCode 3 4 0 = some [2, 1, 0] := by
  refine ⟨runCode_eq_suffix hK, ?_, ?_, by decide⟩
  · rw [code_suffix_length hN hK, Nat.descFactorial_eq_div hNK]
  · intro g hg
    unfold code_suffix at hg
    exact (is_valid_iff_nodup g).mp (List.of_mem_filter hg)

/-- Witness for the amended C7: the second output at `N = 3, K = 4`
agrees with the filtered reference enumeration. -/
theorem code_iterator_spec_witness :
    runCode 3 4 1 = (code_suffix 3 4 1)[1]? :=
  (code_iterator_spec 3 4 (by decide) (by decide) (by decide)).1 1

/-! ## Hypothesis filtering (claims C5, C3) -/

/-- Claim C5: consistency filtering is monotone in the history — both
for an arbitrary universe of candidates and for the concrete
`generate_valid_codes` pipeline, every code consistent with the first
`k + 1` history entries is consistent with the first `k`. -/
theorem hypothesis_filter_monotone :
    (∀ (uni : List (List Nat)) (history : List Entry) (k : Nat) (c : List Nat),
      c ∈ uni.filter (code_is_valid (history.take (k + 1))) →
      c ∈ uni.filter (code_is_valid (history.take k))) ∧
    (∀ (N K : Nat) (history : List Entry) (k : Nat) (c : List Nat),
      c ∈ generate_valid_codes N K (history.take (k + 1)) →
      c ∈ generate_valid_codes N K (history.take k)) := by
  have hmain : ∀ (uni : List (List Nat)) (history : List Entry) (k : Nat)
      (c : List Nat),
      c ∈ uni.filter (code_is_valid (history.take (k + 1))) →
      c ∈ uni.filter (code_is_valid (history.take k)) := by
    intro uni history k c hc
    rw [List.mem_filter] at hc ⊢
    refine ⟨hc.1, ?_⟩
    have hall := hc.2
    unfold code_is_valid at hall ⊢
    rw [List.all_eq_true] at hall ⊢
    intro e he
    refine hall e ?_
    have h1 : history.take k = (history.take (k + 1)).take k := by
      rw [List.take_take]
      congr 1
      omega
    rw [h1] at he
    exact List.mem_of_mem_take he
  exact ⟨hmain, fun N K history k c hc => hmain (code_list N K) history k c hc⟩

/-- Witness for C5 at a concrete universe and empty history. -/
theorem hypothesis_filter_monotone_witness :
    [0, 1] ∈ ([[0, 1]] : List (List Nat)).filter
      (code_is_valid (([] : List Entry).take 0)) :=
  hypothesis_filter_monotone.1 [[0, 1]] [] 0 [0, 1] (by decide)

theorem score_nil (N : Nat) (g : List Nat) : score N [] g = 0 := by
  unfold score information bucket bucket_sum ent_term
  simp

/-- Claim C3 is contradicted by the code (code bug): with the
self-contradictory history `[([0,1], (colorOnly 0, exact 2)),
([0,1], (colorOnly 2, exact 0))]` at `N = 2, K = 2` the recomputed
consistent-code set is empty, yet `SimpleGuesser::guess` does not
surface this to the caller: every candidate scores `0` (all entropy
terms are the NaN-guarded zeros) and the fold returns the arbitrary
last-enumerated sequence `[1,1]` with score `0`. -/
theorem guess_empty_no_surface :
    generate_valid_codes 2 2 [⟨[0, 1], ⟨0, 2⟩⟩, ⟨[0, 1], ⟨2, 0⟩⟩] = [] ∧
    SimpleGuesser.guess 2 2 [⟨[0, 1], ⟨0, 2⟩⟩, ⟨[0, 1], ⟨2, 0⟩⟩] =
      some ([1, 1], 0) := by
  have hgen : generate_valid_codes 2 2 [⟨[0, 1], ⟨0, 2⟩⟩, ⟨[0, 1], ⟨2, 0⟩⟩] = [] := by
    decide
  refine ⟨hgen, ?_⟩
  unfold SimpleGuesser.guess
  rw [hgen]
  have hgl : guess_list 2 2 = [[0, 0], [1, 0], [0, 1], [1, 1]] := by decide
  rw [hgl]
  simp only [List.map_cons, List.map_nil, score_nil]
  unfold max_by_score
  simp only [List.foldl_cons, List.foldl_nil]
  norm_num

/-! ## The entropy bonus (claim C8) -/

theorem sum_countP_eq {α : Type} (M : Nat) (f : α → Nat) :
    ∀ l : List α, (∀ a ∈ l, f a < M) →
      (∑ i ∈ Finset.range M, l.countP fun a => f a == i) = l.length := by
  intro l
  induction l with
  | nil => simp
  | cons a t ih =>
    intro h
    have ht := ih fun x hx => h x (List.mem_cons_of_mem _ hx)
    have ha : f a < M := h a (List.mem_cons_self _ _)
    have hterm : ∀ i, (a :: t).countP (fun x => f x == i) =
        t.countP (fun x => f x == i) + if f a = i then 1 else 0 := by
      intro i
      rw [List.countP_cons]
      congr 1
      by_cases hfa : f a = i
      · rw [if_pos (by simp [hfa]), if_pos hfa]
      · rw [if_neg (by simp [hfa]), if_neg hfa]
    calc (∑ i ∈ Finset.range M, (a :: t).countP fun x => f x == i)
        = ∑ i ∈ Finset.range M,
            (t.countP (fun x => f x == i) + if f a = i then 1 else 0) :=
          Finset.sum_congr rfl fun i _ => hterm i
      _ = (∑ i ∈ Finset.range M, t.countP fun x => f x == i) +
            ∑ i ∈ Finset.range M, (if f a = i then 1 else 0) :=
          Finset.sum_add_distrib
      _ = t.length + 1 := by
          rw [ht, Finset.sum_ite_eq (Finset.range M) (f a) fun _ => 1,
            if_pos (Finset.mem_range.mpr ha)]
      _ = (a :: t).length := by simp

theorem bucket_sum_eq_length {N : Nat} {codes : List (List Nat)} {g : List Nat}
    (hcodes : ∀ c ∈ codes, c.length = N) (hg : g.length = N) :
    bucket_sum N codes g = codes.length := by
  unfold bucket_sum bucket
  refine sum_countP_eq (max_gauss N) _ codes ?_
  intro c hc
  exact to_u32_lt (evaluate_feasible (hcodes c hc) hg)

theorem ent_term_zero (s : Nat) : ent_term 0 s = 0 := by
  simp [ent_term]

theorem ent_term_one_one : ent_term 1 1 = 0 := by
  simp [ent_term]

theorem information_single {N : Nat} {c g : List Nat}
    (hc : c.length = N) (hg : g.length = N) :
    information N [c] g = 0 := by
  unfold information
  refine Finset.sum_eq_zero ?_
  intro i _
  have hone : ∀ x ∈ [c], x.length = N := by
    intro x hx
    simp only [List.mem_singleton] at hx
    subst hx
    exact hc
  have hs : bucket_sum N [c] g = 1 := by
    rw [bucket_sum_eq_length hone hg]
    rfl
  have hble : bucket N [c] g i ≤ 1 := by
    unfold bucket
    exact List.countP_le_length _
  rcases Nat.le_one_iff_eq_zero_or_eq_one.mp hble with hb | hb
  · rw [hb, hs]
    exact ent_term_zero 1
  · rw [hb, hs]
    exact ent_term_one_one

/-- Claim C8: a candidate's score equals its entropy plus exactly
`MaxPartitions - 1` precisely when its all-exact bucket (`counts[N]`)
holds `1` and the total bucket count is `1`; a boosted (secret-pinning)
guess scores `MaxPartitions - 1` while every unboosted candidate of the
same round scores `0`, so the boosted guess strictly outranks it. -/
theorem entropy_bonus (N : Nat) (codes : List (List Nat)) (g g2 : List Nat)
    (hN : 1 ≤ N)
    (hcodes : ∀ c ∈ codes, c.length = N) (hg : g.length = N) (hg2 : g2.length = N)
    (hb : bucket N codes g N = 1) (hs : bucket_sum N codes g = 1)
    (hnb : ¬(bucket N codes g2 N = 1 ∧ bucket_sum N codes g2 = 1)) :
    (∀ g3 : List Nat,
      score N codes g3 = information N codes g3 + ((max_gauss N : ℝ) - 1) ↔
        (bucket N codes g3 N = 1 ∧ bucket_sum N codes g3 = 1)) ∧
    score N codes g = (max_gauss N : ℝ) - 1 ∧
    score N codes g2 = 0 ∧
    score N codes g2 < score N codes g := by
  have hM3 : 3 ≤ max_gauss N := by
    rw [max_gauss_eq_lut]
    have h1 := lut_mono hN
    have h2 : lut_for_index 1 = 3 := rfl
    omega
  have hMR : (3 : ℝ) ≤ (max_gauss N : ℝ) := by exact_mod_cast hM3
  have hlen1 : codes.length = 1 := by
    rw [← bucket_sum_eq_length hcodes hg]
    exact hs
  obtain ⟨c, rfl⟩ := List.length_eq_one.mp hlen1
  have hc : c.length = N := hcodes c (List.mem_cons_self _ _)
  refine ⟨?_, ?_, ?_, ?_⟩
  · intro g3
    unfold score
    constructor
    · intro hEq
      by_contra hcon
      rw [if_neg hcon] at hEq
      have h0 : ((max_gauss N : ℝ) - 1) = 0 := by linarith
      linarith
    · intro hcond
      rw [if_pos hcond]
  · unfold score
    rw [if_pos ⟨hb, hs⟩, information_single hc hg]
    ring
  · unfold score
    rw [if_neg hnb, information_single hc hg2]
    ring
  · unfold score
    rw [if_neg hnb, if_pos ⟨hb, hs⟩,
      information_single hc hg, information_single hc hg2]
    linarith

/-- Witness for C8 at `N = 1` with the single consistent code `[0]`:
the guess `[0]` pins the secret and outranks the unboosted guess `[1]`. -/
theorem entropy_bonus_witness :
    score 1 [[0]] [1] < score 1 [[0]] [0] :=
  (entropy_bonus 1 [[0]] [0] [1] (by decide) (by decide) (by decide) (by decide)
    (by decide) (by decide) (by decide)).2.2.2

end Mastermind
